import Mathlib

/-!
Shallow embedding of the `giterator` package (files `giterator/giterator.py`
and `giterator/file.py`) sufficient to settle the frozen claims about its
log-stream parser, change reconciler, branch reconstructor and archive file
reader.  The modules `giterator/helper.py` and `giterator/commit.py` are not
part of the provided sources; the few values they contribute
(`parse_datetime`, `get_git_renaming`, the `Commit` entity) are modelled from
the specification and marked as such.
-/

namespace Giterator

/-! ### Python string primitives -/

/-- Python's whitespace set used by `str.strip` / `str.rstrip` / `str.split`. -/
def isPySpace (c : Char) : Bool :=
  c = ' ' || c = '\t' || c = '\n' || c = '\r' || c = '\x0b' || c = '\x0c'

/-- Python `str.rstrip()` with no arguments. -/
def pyRstrip (s : String) : String :=
  ⟨(s.data.reverse.dropWhile isPySpace).reverse⟩

/-- Python `str.lstrip()` with no arguments. -/
def pyLstrip (s : String) : String :=
  ⟨s.data.dropWhile isPySpace⟩

/-- Python `str.strip()` with no arguments. -/
def pyStrip (s : String) : String :=
  pyRstrip (pyLstrip s)

/-- Python `s.startswith(pre)`. -/
def pyStartsWith (s pre : String) : Bool :=
  pre.data.isPrefixOf s.data

/-- Helper for `pySplitWhitespace`: accumulates the current word reversed. -/
def splitWSAux : List Char → List Char → List (List Char)
  | [], acc => if acc.isEmpty then [] else [acc.reverse]
  | c :: cs, acc =>
    if isPySpace c then
      if acc.isEmpty then splitWSAux cs [] else acc.reverse :: splitWSAux cs []
    else
      splitWSAux cs (c :: acc)

/-- Python `str.split()` with no arguments: split on whitespace runs,
dropping empty fields. -/
def pySplitWhitespace (s : String) : List String :=
  (splitWSAux s.data []).map fun cs => ⟨cs⟩

/-- Helper for `pySplitSep`: scans left to right for non-overlapping
occurrences of `sep`, keeping empty fields.  The fuel argument (seeded with
more than the input length) only discharges termination; the fallback arm is
unreachable. -/
def splitSepFuel (sep : List Char) : Nat → List Char → List Char → List (List Char)
  | 0, cs, acc => [acc.reverse ++ cs]
  | fuel + 1, cs, acc =>
    match cs with
    | [] => [acc.reverse]
    | c :: cs' =>
      if sep.isPrefixOf (c :: cs') then
        acc.reverse :: splitSepFuel sep fuel ((c :: cs').drop sep.length) []
      else
        splitSepFuel sep fuel cs' (c :: acc)

/-- Python `s.split(sep)` for a nonempty separator: non-overlapping
left-to-right occurrences, empty fields kept. -/
def pySplitSep (s sep : String) : List String :=
  if sep.data.isEmpty then [s]
  else (splitSepFuel sep.data (s.data.length + 1) s.data []).map fun cs => ⟨cs⟩

/-- Containment of one character list in another, used to state what an
error message carries. -/
def listIsInfixOf [DecidableEq α] : List α → List α → Bool
  | needle, [] => needle.isEmpty
  | needle, h :: t => needle.isPrefixOf (h :: t) || listIsInfixOf needle t

/-! ### The two change-line regular expressions

`_RE_CHANGE_NUMSTATS = ^(-|\d+)\s(-|\d+)\s(.*)$` and
`_RE_CHANGE_SUMMARY = ^([a-z]+) mode (\d\d\d\d\d\d) (.+)`, both used through
`re.match` (anchored at the start).  Lines never contain a newline, so `.`
matches every remaining character. -/

/-- One `(-|\d+)` field: a single dash, or a maximal nonempty digit run. -/
def matchNumstatField : List Char → Option (List Char × List Char)
  | [] => none
  | c :: rest =>
    if c = '-' then some (['-'], rest)
    else
      let ds := (c :: rest).takeWhile Char.isDigit
      if ds.isEmpty then none else some (ds, (c :: rest).dropWhile Char.isDigit)

/-- `_RE_CHANGE_NUMSTATS` applied via `re.match`; returns the three groups
(additions, deletions, path). -/
def matchNumstat (line : String) : Option (String × String × String) :=
  match matchNumstatField line.data with
  | none => none
  | some (a, rest) =>
    match rest with
    | c :: rest2 =>
      if isPySpace c then
        match matchNumstatField rest2 with
        | none => none
        | some (d, rest3) =>
          match rest3 with
          | c2 :: rest4 =>
            if isPySpace c2 then some (⟨a⟩, ⟨d⟩, ⟨rest4⟩) else none
          | [] => none
      else none
    | [] => none

/-- `_RE_CHANGE_SUMMARY` applied via `re.match`; returns the three groups
(type word, six-digit mode, path). -/
def matchSummary (line : String) : Option (String × String × String) :=
  let word := line.data.takeWhile Char.isLower
  let rest := line.data.dropWhile Char.isLower
  if word.isEmpty then none
  else
    match rest with
    | ' ' :: 'm' :: 'o' :: 'd' :: 'e' :: ' ' :: rest2 =>
      let digits := rest2.take 6
      let rest3 := rest2.drop 6
      if digits.length = 6 && digits.all Char.isDigit then
        match rest3 with
        | ' ' :: name => if name.isEmpty then none else some (⟨word⟩, ⟨digits⟩, ⟨name⟩)
        | _ => none
      else none
    | _ => none

/-! ### Data model -/

/-- Modelled from the spec: `helper.parse_datetime` is not among the provided
sources.  §6 states that date fields arrive as ISO-8601 text with offset and
are parsed into a structured timestamp; the claims here depend only on the
parse being a function of the text, so the timestamp is represented as a
tagged copy of its input. -/
structure ParsedDatetime where
  iso : String
deriving DecidableEq, Repr

/-- Modelled from the spec: the date-field transform attached to `%aI`
entries of `_LOG_INFOS`. -/
def parse_datetime (s : String) : ParsedDatetime := ⟨s⟩

/-- One per-file change record, as built by `_parse_changes` /
`_parse_summary` (a Python dict with these keys; counts stay strings because
they may be `"-"` for binary files). -/
structure Change where
  name : String
  type : String
  additions : String
  deletions : String
  old_name : Option String := none
  mode : Option String := none
deriving DecidableEq, Repr

/-- The commit dict built by `Giterator.iter_commits`.  `none` marks a key
not yet assigned. -/
structure CommitData where
  hash : Option String := none
  tree_hash : Option String := none
  parent_hash : Option (List String) := none
  author : Option String := none
  author_email : Option String := none
  author_date : Option ParsedDatetime := none
  committer : Option String := none
  committer_email : Option String := none
  committer_date : Option ParsedDatetime := none
  ref_names : Option (List String) := none
  encoding : Option String := none
  message : Option String := none
  changes : Option (List Change) := none
deriving DecidableEq, Repr

/-- The empty dict `commit = dict()`. -/
def emptyCommit : CommitData := {}

/-- Python truthiness of the commit dict (`if commit:`): some key has been
assigned. -/
def CommitData.isSet (c : CommitData) : Bool :=
  c.hash.isSome || c.tree_hash.isSome || c.parent_hash.isSome ||
  c.author.isSome || c.author_email.isSome || c.author_date.isSome ||
  c.committer.isSome || c.committer_email.isSome || c.committer_date.isSome ||
  c.ref_names.isSome || c.encoding.isSome || c.message.isSome ||
  c.changes.isSome

/-! ### Change reconciler (`_parse_changes` / `_parse_summary`) -/

/-- Modelled from the spec: `helper.get_git_renaming` is not among the
provided sources.  §4.2 describes it as detecting the tool's embedded rename
notation in a numeric-stat path — either plain `old => new` or the
shared-prefix brace form `pre{old => new}post` — and resolving it into the
pair (old path, new path); it returns nothing when the path encodes no
rename. -/
def get_git_renaming (name : String) : Option (String × String) :=
  match pySplitSep name "\x7b" with
  | [before, inner] =>
    match pySplitSep inner "\x7d" with
    | [mid, after] =>
      match pySplitSep mid " => " with
      | [o, n] => some (before ++ o ++ after, before ++ n ++ after)
      | _ => none
    | _ => none
  | _ =>
    match pySplitSep name " => " with
    | [o, n] => some (o, n)
    | _ => none

/-- Errors that abort `iter_commits`: the `AssertionError` raised by
`_parse_summary` (carrying the missing path, the offending line and the
partially-built commit dict) and Python `KeyError` on a missing dict key. -/
inductive ParseError where
  | assertFail (name : String) (line : String) (commit : CommitData)
  | keyError (key : String)
deriving DecidableEq, Repr

/-- The user-visible error text: the `AssertionError` f-string of
`_parse_summary`, or the key a Python `KeyError` reports. -/
def ParseError.message : ParseError → String
  | .assertFail name line _ =>
    "Expected '" ++ name ++ "' in --netstat changes, but got only --summary '"
      ++ line ++ "'\ncommit: <commit dict>"
  | .keyError key => key

/-- `Giterator._parse_changes`.  The Python function always falls off the end
(returning `None`, a falsy value), so the caller's guard never suppresses the
subsequent `_parse_summary` call; only the state update matters here. -/
def parse_changes (commit : CommitData) (line : String) : CommitData :=
  match matchNumstat line with
  | none => commit
  | some (additions, deletions, name) =>
    let chs := commit.changes.getD []
    let ch : Change :=
      { name := name, type := "change", additions := additions, deletions := deletions }
    let ch :=
      match get_git_renaming name with
      | some (o, n) => { ch with name := n, old_name := some o, type := "rename" }
      | none => ch
    { commit with changes := some (chs ++ [ch]) }

/-- The `for ch in commit["changes"]` loop of `_parse_summary`: update the
first Change whose `name` matches, in place; `none` when no Change matches. -/
def enrichFirst (type mode name : String) : List Change → Option (List Change)
  | [] => none
  | ch :: rest =>
    if ch.name = name then some ({ ch with type := type, mode := some mode } :: rest)
    else (enrichFirst type mode name rest).map (ch :: ·)

/-- `Giterator._parse_summary`.  Returns the updated commit and the Python
return value; `.error` models the raised `AssertionError` (no matching
Change) or the `KeyError` (no `"changes"` key at all). -/
def parse_summary (commit : CommitData) (line : String) :
    Except ParseError (CommitData × Bool) :=
  if pyStartsWith line "rename " then .ok (commit, true)
  else
    match matchSummary (pyStrip line) with
    | none => .ok (commit, false)
    | some (type, mode, name) =>
      match commit.changes with
      | none => .error (.keyError "changes")
      | some chs =>
        match enrichFirst type mode name chs with
        | some chs' => .ok ({ commit with changes := some chs' }, true)
        | none => .error (.assertFail name line commit)

/-! ### Log stream parser (`Giterator.iter_commits`) -/

/-- `Giterator._LOG_INFOS` as (format token, field name) pairs; the attached
transforms are dispatched by position in `setField`. -/
def LOG_INFOS : List (String × String) := [
  ("%H", "hash"),
  ("%T", "tree_hash"),
  ("%P", "parent_hash"),
  ("%an", "author"),
  ("%ae", "author_email"),
  ("%aI", "author_date"),
  ("%an", "committer"),
  ("%ae", "committer_email"),
  ("%aI", "committer_date"),
  ("%D", "ref_names"),
  ("%e", "encoding")
]

/-- `commit[log_info[1]] = value` for metadata line `i` (1-based), applying
the transform `log_info[2]` when the `_LOG_INFOS` entry declares one. -/
def setField (i : Nat) (c : CommitData) (line : String) : CommitData :=
  match i with
  | 1 => { c with hash := some line }
  | 2 => { c with tree_hash := some line }
  | 3 =>
    let v := if pyStrip line ≠ "" then pySplitWhitespace line else []
    { c with parent_hash := some v }
  | 4 => { c with author := some line }
  | 5 => { c with author_email := some line }
  | 6 => { c with author_date := some (parse_datetime line) }
  | 7 => { c with committer := some line }
  | 8 => { c with committer_email := some line }
  | 9 => { c with committer_date := some (parse_datetime line) }
  | 10 =>
    let v := if pyStrip line ≠ "" then pySplitSep line ", " else []
    { c with ref_names := some v }
  | 11 => { c with encoding := some line }
  | _ => c

/-- `_DELIMITER1`. -/
def DELIMITER1 : String := "$$$1-GiTeRaToR" ++ "-dAtA" ++ "-dElImItEr-$$$"

/-- `_DELIMITER2`. -/
def DELIMITER2 : String := "\n$$$2-GiTeRaToR" ++ "-dAtA" ++ "-dElImItEr-$$$"

/-- `_DELIMITER2[1:]`, the form compared against a stripped stream line. -/
def DELIMITER2_TAIL : String := ⟨DELIMITER2.data.drop 1⟩

/-- The `# digest each line` branch of the `iter_commits` loop, for a line
that is neither delimiter; `line` is the already-rstripped stream line and
`j` the Python `current_line` counter (`-1` once the message has closed). -/
def digestLine (c : CommitData) (j : Int) (line : String) :
    Except ParseError CommitData :=
  if 1 ≤ j ∧ j ≤ (LOG_INFOS.length : Int) then
    .ok (setField j.toNat c line)
  else if j = (LOG_INFOS.length : Int) + 1 then
    .ok { c with message := some (pyRstrip line) }
  else if (LOG_INFOS.length : Int) + 1 < j then
    match c.message with
    | some m => .ok { c with message := some (m ++ "\n" ++ pyRstrip line) }
    | none => .error (.keyError "message")
  else if j = -1 then
    (parse_summary (parse_changes c (pyStrip line)) (pyStrip line)).map Prod.fst
  else
    .ok c

/-- The `while` guard's negation: `not (count <= 0 or cur_count - offset <
count)`, i.e. the loop stops before reading the next line. -/
def breakCond (offset : Nat) (count : Int) (cur_count : Nat) : Bool :=
  decide (0 < count) && decide (count ≤ (cur_count : Int) - (offset : Int))

/-- The `if commit:` block after the `while` loop: the in-flight commit is
yielded when it is non-empty, past the skip window and inside the count
window. -/
def finalYield (offset : Nat) (count : Int) (c : CommitData) (cur_count : Nat) :
    List CommitData :=
  if c.isSet ∧ offset ≤ cur_count ∧
      (count ≤ 0 ∨ (cur_count : Int) - (offset : Int) < count) then
    [c]
  else []

/-- The `iter_commits` read loop over the decoded stdout lines.  Returns the
yielded commit dicts in order, paired with the error that aborted the stream,
if any.  The list argument plays the role of `readline` (its end is the
end-of-stream signal). -/
def runLines (offset : Nat) (count : Int) :
    List String → CommitData → Int → Nat → List CommitData × Option ParseError
  | [], commit, _, cur_count =>
    (finalYield offset count commit cur_count, none)
  | rawLine :: rest, commit, current_line, cur_count =>
    if breakCond offset count cur_count then
      (finalYield offset count commit cur_count, none)
    else
      let line := pyRstrip rawLine
        if line = DELIMITER1 then
          if commit.isSet then
            let emitted := if offset ≤ cur_count then [commit] else []
            let (out, err) := runLines offset count rest emptyCommit 1 (cur_count + 1)
            (emitted ++ out, err)
          else
            runLines offset count rest emptyCommit 1 cur_count
        else if line = DELIMITER2_TAIL then
          match commit.message with
          | some m =>
            runLines offset count rest { commit with message := some (pyRstrip m) }
              (-1) cur_count
          | none => ([], some (.keyError "message"))
        else
          match digestLine commit current_line line with
          | .error e => ([], some e)
          | .ok commit' =>
            runLines offset count rest commit'
              (if 0 ≤ current_line then current_line + 1 else current_line) cur_count

/-- `Giterator.iter_commits(offset=, count=)` over a given decoded line
stream (the `git log` stdout).  Commit construction from the finished dict
lives in the missing `commit.py`; the dict itself is yielded. -/
def iter_commits (offset : Nat) (count : Int) (lines : List String) :
    List CommitData × Option ParseError :=
  runLines offset count lines emptyCommit 0 0

/-! ### Frames: the shape of real `git log` output under the pretty format -/

/-- One delimiter-framed commit block as the configured pretty format prints
it: the DELIMITER1 line, one line per `_LOG_INFOS` token, the `%B` message
lines, the DELIMITER2 line (its leading newline makes it a line of its own),
then the numstat/summary section. -/
structure Frame where
  metadata : List String
  message : List String
  changes : List String
deriving DecidableEq, Repr

/-- The raw lines a frame contributes to the stream. -/
def Frame.lines (f : Frame) : List String :=
  [DELIMITER1] ++ f.metadata ++ f.message ++ [DELIMITER2_TAIL] ++ f.changes

/-- The whole stdout stream for a sequence of frames. -/
def renderStream (frames : List Frame) : List String :=
  (frames.map Frame.lines).flatten

/-- Folding the digest branch over a run of non-delimiter lines, tracking the
`current_line` counter exactly as the loop does. -/
def foldDigest : List String → CommitData → Int → Except ParseError (CommitData × Int)
  | [], c, j => .ok (c, j)
  | l :: ls, c, j =>
    match digestLine c j (pyRstrip l) with
    | .error e => .error e
    | .ok c' => foldDigest ls c' (if 0 ≤ j then j + 1 else j)

/-- The commit dict a single frame parses to, in isolation: metadata and
message lines digested from `current_line = 1`, the message closed by the
DELIMITER2 line, then the change section digested at `current_line = -1`. -/
def frameResultE (f : Frame) : Except ParseError CommitData :=
  match foldDigest (f.metadata ++ f.message) emptyCommit 1 with
  | .error e => .error e
  | .ok (c, _) =>
    match c.message with
    | none => .error (.keyError "message")
    | some m =>
      (foldDigest f.changes { c with message := some (pyRstrip m) } (-1)).map Prod.fst

/-- The commit dict of a frame that parses cleanly. -/
def frameCommit (f : Frame) : CommitData :=
  (frameResultE f).toOption.getD emptyCommit

/-- A line that can sit inside a frame body without being mistaken for a
frame boundary. -/
def goodLine (l : String) : Bool :=
  pyRstrip l ≠ DELIMITER1 && pyRstrip l ≠ DELIMITER2_TAIL

/-- Well-formed frame: the declared number of metadata lines, at least one
message line, no delimiter collisions, and a change section the reconciler
accepts. -/
def Frame.WF (f : Frame) : Prop :=
  f.metadata.length = LOG_INFOS.length ∧
  f.message ≠ [] ∧
  (∀ l ∈ f.metadata ++ f.message ++ f.changes, goodLine l = true) ∧
  (frameResultE f).isOk = true

instance : DecidablePred Frame.WF := fun f => by
  unfold Frame.WF; infer_instance

/-! ### Branch reconstructor (`Giterator.iter_commits_consecutive`) -/

/-- Modelled from the spec: the `Commit` entity of the missing `commit.py`,
restricted to the two attributes the branch reconstructor reads (§3: identity
`hash`, graph link `parent_hash`). -/
structure Commit where
  hash : String
  parent_hash : List String
deriving DecidableEq, Repr

/-- One open branch: the Python list `[age, commit, ...]` split into its age
counter slot and its buffered commit run `branch[1:]`. -/
structure OpenBranch where
  age : Nat
  commits : List Commit
deriving DecidableEq, Repr

/-- The inner `for parent_hash in commit.parent_hash` scan: does some
declared parent equal the branch's most recently appended commit's hash? -/
def branchMatches (c : Commit) (b : OpenBranch) : Bool :=
  c.parent_hash.any fun p =>
    match b.commits.getLast? with
    | some lc => p == lc.hash
    | none => false

/-- The `for branch in branches` loop body for a commit with parents: ages
every branch, appends the commit to the first branch whose last commit is a
declared parent, and splits the result into (commits emitted by evictions,
surviving branches, `added` flag). -/
def stepOpen (bl ba : Nat) (c : Commit) :
    List OpenBranch → Bool → List Commit × List OpenBranch × Bool
  | [], added => ([], [], added)
  | b :: bs, added =>
    let matched := !added && branchMatches c b
    let b' : OpenBranch := ⟨b.age + 1, if matched then b.commits ++ [c] else b.commits⟩
    let r := stepOpen bl ba c bs (added || matched)
    if bl < b'.commits.length || ba < b'.age then
      (b'.commits ++ r.1, r.2.1, r.2.2)
    else
      (r.1, b' :: r.2.1, r.2.2)

/-- The aged/possibly-extended branch list alone (same traversal as
`stepOpen`, before the eviction split); used to state what eviction keeps
and what it throws out. -/
def updBranches (c : Commit) : List OpenBranch → Bool → List OpenBranch × Bool
  | [], added => ([], added)
  | b :: bs, added =>
    let matched := !added && branchMatches c b
    let b' : OpenBranch := ⟨b.age + 1, if matched then b.commits ++ [c] else b.commits⟩
    let r := updBranches c bs (added || matched)
    (b' :: r.1, r.2)

/-- The eviction test `len(branch) - 1 > branch_length or branch[0] >
branch_age`. -/
def isEvict (bl ba : Nat) (b : OpenBranch) : Bool :=
  bl < b.commits.length || ba < b.age

/-- One iteration of the outer `for commit in self.iter_commits(...)` loop,
accumulating yielded commits on the left. -/
def consecStep (bl ba : Nat) (acc : List Commit × List OpenBranch) (c : Commit) :
    List Commit × List OpenBranch :=
  if c.parent_hash.isEmpty then
    (acc.1, acc.2 ++ [⟨0, [c]⟩])
  else
    let r := stepOpen bl ba c acc.2 false
    let nbs := if r.2.2 then r.2.1 else r.2.1 ++ [⟨0, [c]⟩]
    (acc.1 ++ r.1, nbs)

/-- `Giterator.iter_commits_consecutive(branch_length=, branch_age=)` applied
to the already-parsed commit sequence: the eviction yields during the loop
followed by the final flush of the remaining branches in opening order. -/
def iter_commits_consecutive (bl ba : Nat) (commits : List Commit) : List Commit :=
  let r := commits.foldl (consecStep bl ba) ([], [])
  r.1 ++ (r.2.map OpenBranch.commits).flatten

/-! ### Archive file reader (`Giterator.iter_files`, `File.content`) -/

/-- The slice of the archive entry descriptor that `File.content` and
`iter_files` read (`tarfile.TarInfo`). -/
structure TarInfo where
  name : String
  size : Nat
  mtime : Nat
  offset_data : Nat
  sparse : Option (List (Nat × Nat)) := none
  isfile : Bool := true
deriving DecidableEq, Repr

/-- `buffer.seek(pos)` followed by `buffer.read(n)` on an in-memory byte
buffer: at most `n` bytes starting at `pos`. -/
def pyReadAt (buffer : List Nat) (pos n : Nat) : List Nat :=
  (buffer.drop pos).take n

/-- `File.content` (first access): sparse entries concatenate the reads of
their `(offset, size)` extents in declared order; contiguous entries read
`size` bytes at `offset_data`. -/
def fileContent (buffer : List Nat) (t : TarInfo) : List Nat :=
  match t.sparse with
  | some extents => extents.foldl (fun data e => data ++ pyReadAt buffer e.1 e.2) []
  | none => pyReadAt buffer t.offset_data t.size

/-- The tail of `Giterator.iter_files` once the collaborator process has been
drained: `archive` is the outcome of `tarfile.open` on the buffered stdout
(`.error` standing for `tarfile.ReadError`), `filenames` the requested path
restriction, `error_response` the decoded captured stderr.  On a read error
the empty sequence is yielded when no paths were requested, otherwise a
`tarfile.ReadError` carrying the stderr text is raised. -/
def iter_files (archive : Except Unit (List TarInfo)) (filenames : List String)
    (error_response : String) : Except String (List TarInfo) :=
  match archive with
  | .ok entries => .ok (entries.filter (·.isfile))
  | .error _ => if filenames.isEmpty then .ok [] else .error error_response

/-! ### Proof-support definitions -/

/-- The yield window of the skip/limit bookkeeping: commits with index `cc,
cc+1, ...` are kept when their index is at least `offset` and, for positive
`count`, below `offset + count`. -/
def expectedFrom (offset : Nat) (count : Int) : Nat → List CommitData → List CommitData
  | _, [] => []
  | cc, v :: vs =>
    (if offset ≤ cc ∧ (count ≤ 0 ∨ (cc : Int) - (offset : Int) < count) then [v] else [])
      ++ expectedFrom offset count (cc + 1) vs

/-- Metadata lines as the pretty format prints them for one commit: the
`_LOG_INFOS` token column rendered by the tool.  `tv` maps a format token to
its expansion for that commit. -/
def renderMetadata (tv : String → String) : List String :=
  LOG_INFOS.map fun i => tv i.1

/-- The lines of a frame after its DELIMITER1 line. -/
def Frame.body (f : Frame) : List String :=
  f.metadata ++ f.message ++ [DELIMITER2_TAIL] ++ f.changes

/-- Two commit dicts agreeing on every key except possibly `"changes"`. -/
def eqExceptChanges (a b : CommitData) : Prop :=
  a.hash = b.hash ∧ a.tree_hash = b.tree_hash ∧ a.parent_hash = b.parent_hash ∧
  a.author = b.author ∧ a.author_email = b.author_email ∧
  a.author_date = b.author_date ∧ a.committer = b.committer ∧
  a.committer_email = b.committer_email ∧ a.committer_date = b.committer_date ∧
  a.ref_names = b.ref_names ∧ a.encoding = b.encoding ∧ a.message = b.message

/-- Two commit dicts agreeing on every key except possibly `"message"` and
`"changes"`. -/
def eqExceptMessage (a b : CommitData) : Prop :=
  a.hash = b.hash ∧ a.tree_hash = b.tree_hash ∧ a.parent_hash = b.parent_hash ∧
  a.author = b.author ∧ a.author_email = b.author_email ∧
  a.author_date = b.author_date ∧ a.committer = b.committer ∧
  a.committer_email = b.committer_email ∧ a.committer_date = b.committer_date ∧
  a.ref_names = b.ref_names ∧ a.encoding = b.encoding

/-- The message the parser actually produces from a frame's raw message
lines: every line is already rstripped as it is read, lines are joined with
newlines, and the whole text is rstripped once more when DELIMITER2 is
recognized. -/
def joinedMessage : List String → Option String
  | [] => none
  | m1 :: rest =>
    some (pyRstrip (rest.foldl (fun a l => a ++ "\n" ++ pyRstrip l) (pyRstrip m1)))

/-! ### Concrete demonstration inputs -/

/-- A metadata column for a commit with hash `h` and parent column `p`. -/
def mkMeta (h p : String) : List String :=
  [h, "tree-" ++ h, p, "Alice", "alice@example.com",
   "2021-01-01T00:00:00+00:00", "Alice", "alice@example.com",
   "2021-01-01T00:00:00+00:00", "", ""]

/-- A root-commit frame touching `a.txt`. -/
def demoFrame1 : Frame :=
  ⟨mkMeta "h1" "", ["Message 1"], ["1\t0\ta.txt", "", "create mode 100644 a.txt"]⟩

/-- A frame for a child commit of `demoFrame1`. -/
def demoFrame2 : Frame := ⟨mkMeta "h2" "h1", ["Message 2"], []⟩

/-- A frame for a child commit of `demoFrame2`. -/
def demoFrame3 : Frame := ⟨mkMeta "h3" "h2", ["Message 3"], []⟩

/-- A frame whose second message line carries trailing whitespace. -/
def trailingWSFrame : Frame := ⟨mkMeta "h1" "", ["first", "ab ", "cd"], []⟩

/-- A frame whose change section has a summary line but no numeric-stat line
at all. -/
def noNumstatFrame : Frame :=
  ⟨mkMeta "h1" "", ["msg"], ["create mode 100644 a.txt"]⟩

/-- A frame whose summary line names a path its numeric-stat section does
not mention. -/
def mismatchFrame : Frame :=
  ⟨mkMeta "h1" "", ["msg"], ["1\t0\tb.txt", "create mode 100644 a.txt"]⟩

/-- A frame with two numeric-stat changes of which the summary section
enriches only the first. -/
def reconcileFrame : Frame :=
  ⟨mkMeta "h1" "", ["msg"], ["1\t0\ta.txt", "2\t3\tb.txt", "create mode 100644 a.txt"]⟩

/-- Token expansion of a demonstration commit for the `--pretty` format. -/
def demoTv : String → String := fun t =>
  if t = "%H" then "cafe01" else
  if t = "%T" then "tree01" else
  if t = "%P" then "" else
  if t = "%an" then "Alice" else
  if t = "%ae" then "alice@example.com" else
  if t = "%aI" then "2021-01-01T00:00:00+00:00" else
  if t = "%D" then "" else ""

/-- A frame whose metadata column is the rendered `_LOG_INFOS` token list. -/
def tokenFrame : Frame := ⟨renderMetadata demoTv, ["hello"], []⟩

/-- Root commit `C1` of the linear chain. -/
def linC1 : Commit := ⟨"h1", []⟩

/-- Commit `C2`, child of `C1`. -/
def linC2 : Commit := ⟨"h2", ["h1"]⟩

/-- Commit `C3`, child of `C2`. -/
def linC3 : Commit := ⟨"h3", ["h2"]⟩

/-- A root commit unrelated to `soloY`. -/
def soloX : Commit := ⟨"x1", []⟩

/-- A commit whose only declared parent matches no other demonstration
commit. -/
def soloY : Commit := ⟨"y1", ["zz"]⟩

/-- A commit dict mid-frame whose numeric-stat pass recorded only
`"b.txt"`. -/
def mismatchCommit : CommitData :=
  { changes := some [{ name := "b.txt", type := "change", additions := "1", deletions := "0" }] }

/-- A 20-byte buffer holding the values 0..19. -/
def demoBuffer : List Nat := List.range 20

/-- A sparse archive entry with extents `[(0,4),(10,4)]`. -/
def sparseInfo : TarInfo :=
  { name := "s.bin", size := 8, mtime := 0, offset_data := 0,
    sparse := some [(0, 4), (10, 4)] }

/-! ## Theorems -/

theorem dropWhile_self_inv (p : α → Bool) (l : List α) :
    (l.dropWhile p).dropWhile p = l.dropWhile p := by
  induction l with
  | nil => rfl
  | cons a l ih =>
    simp only [List.dropWhile_cons]
    split
    · exact ih
    · simp_all [List.dropWhile_cons]

theorem pyRstrip_idem (s : String) : pyRstrip (pyRstrip s) = pyRstrip s := by
  unfold pyRstrip
  congr 1
  simp [dropWhile_self_inv]

theorem pyRstrip_delim1 : pyRstrip DELIMITER1 = DELIMITER1 := by decide

theorem pyRstrip_delim2_tail : pyRstrip DELIMITER2_TAIL = DELIMITER2_TAIL := by decide

theorem delim2_tail_ne_delim1 : DELIMITER2_TAIL ≠ DELIMITER1 := by decide

theorem foldDigest_append (xs ys : List String) (c : CommitData) (j : Int) :
    foldDigest (xs ++ ys) c j =
      match foldDigest xs c j with
      | .ok (c', j') => foldDigest ys c' j'
      | .error e => .error e := by
  induction xs generalizing c j with
  | nil => simp [foldDigest]
  | cons l ls ih =>
    simp only [List.cons_append, foldDigest]
    cases digestLine c j (pyRstrip l) with
    | error e => rfl
    | ok c' => exact ih c' _

theorem foldDigest_final_j (ls : List String) :
    ∀ c (j : Int) c' j', foldDigest ls c j = .ok (c', j') → 0 ≤ j →
      j' = j + ls.length := by
  induction ls with
  | nil =>
    intro c j c' j' h _
    simp only [foldDigest, Except.ok.injEq, Prod.mk.injEq] at h
    obtain ⟨-, rfl⟩ := h
    simp
  | cons l ls ih =>
    intro c j c' j' h hj
    simp only [foldDigest] at h
    cases hd : digestLine c j (pyRstrip l) with
    | error e => rw [hd] at h; exact absurd h (by simp)
    | ok c2 =>
      rw [hd] at h
      have := ih c2 _ c' j' h (by omega)
      simp only [List.length_cons]
      rw [if_pos hj] at this
      omega

theorem runLines_nil (offset : Nat) (count : Int) (c : CommitData) (j : Int) (cc : Nat) :
    runLines offset count [] c j cc = (finalYield offset count c cc, none) := rfl

theorem runLines_break (offset : Nat) (count : Int) (l : String) (ls : List String)
    (c : CommitData) (j : Int) (cc : Nat) (h : breakCond offset count cc = true) :
    runLines offset count (l :: ls) c j cc = (finalYield offset count c cc, none) := by
  rw [runLines, if_pos h]

theorem runLines_digest (offset : Nat) (count : Int) (l : String) (ls : List String)
    (c : CommitData) (j : Int) (cc : Nat)
    (h : breakCond offset count cc = false)
    (h1 : pyRstrip l ≠ DELIMITER1) (h2 : pyRstrip l ≠ DELIMITER2_TAIL) :
    runLines offset count (l :: ls) c j cc =
      match digestLine c j (pyRstrip l) with
      | .error e => ([], some e)
      | .ok c' => runLines offset count ls c' (if 0 ≤ j then j + 1 else j) cc := by
  rw [runLines, if_neg (by simp [h]), if_neg h1, if_neg h2]

theorem runLines_delim2 (offset : Nat) (count : Int) (ls : List String)
    (c : CommitData) (j : Int) (cc : Nat) (m : String)
    (h : breakCond offset count cc = false) (hm : c.message = some m) :
    runLines offset count (DELIMITER2_TAIL :: ls) c j cc =
      runLines offset count ls { c with message := some (pyRstrip m) } (-1) cc := by
  rw [runLines, if_neg (by simp [h]), pyRstrip_delim2_tail,
    if_neg delim2_tail_ne_delim1, if_pos rfl, hm]

theorem runLines_delim1 (offset : Nat) (count : Int) (ls : List String)
    (c : CommitData) (j : Int) (cc : Nat)
    (h : breakCond offset count cc = false) (hset : c.isSet = true) :
    runLines offset count (DELIMITER1 :: ls) c j cc =
      ((if offset ≤ cc then [c] else []) ++
        (runLines offset count ls emptyCommit 1 (cc + 1)).1,
       (runLines offset count ls emptyCommit 1 (cc + 1)).2) := by
  rw [runLines, if_neg (by simp [h]), pyRstrip_delim1, if_pos rfl, hset]
  simp only [if_true]

theorem runLines_delim1_empty (offset : Nat) (count : Int) (ls : List String)
    (j : Int) (cc : Nat) (h : breakCond offset count cc = false) :
    runLines offset count (DELIMITER1 :: ls) emptyCommit j cc =
      runLines offset count ls emptyCommit 1 cc := by
  rw [runLines, if_neg (by simp [h]), pyRstrip_delim1, if_pos rfl]
  rfl

theorem runLines_digest_run_ok (offset : Nat) (count : Int) (ls : List String) :
    ∀ (c : CommitData) (j : Int) (cc : Nat) (rest : List String) c' j',
      breakCond offset count cc = false →
      (∀ l ∈ ls, goodLine l = true) →
      foldDigest ls c j = .ok (c', j') →
      runLines offset count (ls ++ rest) c j cc = runLines offset count rest c' j' cc := by
  induction ls with
  | nil =>
    intro c j cc rest c' j' _ _ hfd
    simp only [foldDigest, Except.ok.injEq, Prod.mk.injEq] at hfd
    obtain ⟨rfl, rfl⟩ := hfd
    rfl
  | cons l ls ih =>
    intro c j cc rest c' j' hbr hgood hfd
    have hg := hgood l (by simp)
    simp only [goodLine, Bool.and_eq_true, decide_eq_true_eq] at hg
    rw [List.cons_append, runLines_digest offset count l (ls ++ rest) c j cc hbr
      (by simpa using hg.1) (by simpa using hg.2)]
    simp only [foldDigest] at hfd
    cases hd : digestLine c j (pyRstrip l) with
    | error e => rw [hd] at hfd; exact absurd hfd (by simp)
    | ok c2 =>
      rw [hd] at hfd
      exact ih c2 _ cc rest c' j' hbr (fun x hx => hgood x (by simp [hx])) hfd

theorem runLines_digest_run_error (offset : Nat) (count : Int) (ls : List String) :
    ∀ (c : CommitData) (j : Int) (cc : Nat) (rest : List String) e,
      breakCond offset count cc = false →
      (∀ l ∈ ls, goodLine l = true) →
      foldDigest ls c j = .error e →
      runLines offset count (ls ++ rest) c j cc = ([], some e) := by
  induction ls with
  | nil =>
    intro c j cc rest e _ _ hfd
    exact absurd hfd (by simp [foldDigest])
  | cons l ls ih =>
    intro c j cc rest e hbr hgood hfd
    have hg := hgood l (by simp)
    simp only [goodLine, Bool.and_eq_true, decide_eq_true_eq] at hg
    rw [List.cons_append, runLines_digest offset count l (ls ++ rest) c j cc hbr
      (by simpa using hg.1) (by simpa using hg.2)]
    simp only [foldDigest] at hfd
    cases hd : digestLine c j (pyRstrip l) with
    | error e2 =>
      rw [hd] at hfd
      simp only [Except.error.injEq] at hfd
      subst hfd
      rfl
    | ok c2 =>
      rw [hd] at hfd
      exact ih c2 _ cc rest e hbr (fun x hx => hgood x (by simp [hx])) hfd

theorem eqExceptChanges_refl (c : CommitData) : eqExceptChanges c c := by
  simp [eqExceptChanges]

theorem eqExceptChanges_trans {a b c : CommitData} (h1 : eqExceptChanges a b)
    (h2 : eqExceptChanges b c) : eqExceptChanges a c := by
  unfold eqExceptChanges at *
  obtain ⟨e1, e2, e3, e4, e5, e6, e7, e8, e9, e10, e11, e12⟩ := h1
  obtain ⟨f1, f2, f3, f4, f5, f6, f7, f8, f9, f10, f11, f12⟩ := h2
  exact ⟨e1.trans f1, e2.trans f2, e3.trans f3, e4.trans f4, e5.trans f5,
    e6.trans f6, e7.trans f7, e8.trans f8, e9.trans f9, e10.trans f10,
    e11.trans f11, e12.trans f12⟩

theorem parse_changes_eqExceptChanges (c : CommitData) (l : String) :
    eqExceptChanges (parse_changes c l) c := by
  unfold parse_changes
  cases matchNumstat l with
  | none => exact eqExceptChanges_refl c
  | some g =>
    obtain ⟨a, d, n⟩ := g
    cases get_git_renaming n <;> simp [eqExceptChanges]

theorem parse_summary_eqExceptChanges (c : CommitData) (l : String) (c' : CommitData)
    (b : Bool) (h : parse_summary c l = .ok (c', b)) : eqExceptChanges c' c := by
  unfold parse_summary at h
  split_ifs at h with hr
  · simp only [Except.ok.injEq, Prod.mk.injEq] at h
    rw [← h.1]
    exact eqExceptChanges_refl c
  · split at h
    · simp only [Except.ok.injEq, Prod.mk.injEq] at h
      rw [← h.1]
      exact eqExceptChanges_refl c
    · split at h
      · exact absurd h (by simp)
      · split at h
        · simp only [Except.ok.injEq, Prod.mk.injEq] at h
          rw [← h.1]
          simp [eqExceptChanges]
        · exact absurd h (by simp)

theorem setField_message_changes (i : Nat) (c : CommitData) (l : String) :
    (setField i c l).message = c.message ∧ (setField i c l).changes = c.changes := by
  unfold setField
  split <;> simp

theorem setField_hash_isSome (i : Nat) (c : CommitData) (l : String)
    (h : c.hash.isSome = true) : (setField i c l).hash.isSome = true := by
  unfold setField
  split <;> simp_all

theorem digestLine_hash_isSome {c : CommitData} {j : Int} {l : String} {c' : CommitData}
    (h : digestLine c j l = .ok c') (hs : c.hash.isSome = true) :
    c'.hash.isSome = true := by
  unfold digestLine at h
  split_ifs at h with h1 h2 h3 h4
  · simp only [Except.ok.injEq] at h
    rw [← h]
    exact setField_hash_isSome _ c l hs
  · simp only [Except.ok.injEq] at h
    rw [← h]
    exact hs
  · cases hm : c.message with
    | none => rw [hm] at h; exact absurd h (by simp)
    | some m =>
      rw [hm] at h
      simp only [Except.ok.injEq] at h
      rw [← h]
      exact hs
  · cases hps : parse_summary (parse_changes c (pyStrip l)) (pyStrip l) with
    | error e => rw [hps] at h; exact absurd h (by simp [Except.map])
    | ok p =>
      obtain ⟨c2, b⟩ := p
      rw [hps] at h
      simp only [Except.map, Except.ok.injEq] at h
      rw [← h]
      have e1 := parse_summary_eqExceptChanges _ _ _ _ hps
      have e2 := parse_changes_eqExceptChanges c (pyStrip l)
      have := (eqExceptChanges_trans e1 e2).1
      rw [this]
      exact hs
  · simp only [Except.ok.injEq] at h
    rw [← h]
    exact hs

theorem foldDigest_hash_isSome (ls : List String) :
    ∀ (c : CommitData) (j : Int) c' j', foldDigest ls c j = .ok (c', j') →
      c.hash.isSome = true → c'.hash.isSome = true := by
  induction ls with
  | nil =>
    intro c j c' j' h hs
    simp only [foldDigest, Except.ok.injEq, Prod.mk.injEq] at h
    rw [← h.1]
    exact hs
  | cons l ls ih =>
    intro c j c' j' h hs
    simp only [foldDigest] at h
    cases hd : digestLine c j (pyRstrip l) with
    | error e => rw [hd] at h; exact absurd h (by simp)
    | ok c2 =>
      rw [hd] at h
      exact ih c2 _ c' j' h (digestLine_hash_isSome hd hs)

theorem digestLine_neg_one {c : CommitData} {l : String} {c' : CommitData}
    (h : digestLine c (-1) l = .ok c') : eqExceptChanges c' c := by
  unfold digestLine at h
  rw [if_neg (by decide), if_neg (by decide), if_neg (by decide), if_pos rfl] at h
  cases hps : parse_summary (parse_changes c (pyStrip l)) (pyStrip l) with
  | error e => rw [hps] at h; exact absurd h (by simp [Except.map])
  | ok p =>
    obtain ⟨c2, b⟩ := p
    rw [hps] at h
    simp only [Except.map, Except.ok.injEq] at h
    rw [← h]
    exact eqExceptChanges_trans (parse_summary_eqExceptChanges _ _ _ _ hps)
      (parse_changes_eqExceptChanges c (pyStrip l))

theorem foldDigest_changes_run (ls : List String) :
    ∀ (c : CommitData) c' j', foldDigest ls c (-1) = .ok (c', j') →
      eqExceptChanges c' c ∧ j' = -1 := by
  induction ls with
  | nil =>
    intro c c' j' h
    simp only [foldDigest, Except.ok.injEq, Prod.mk.injEq] at h
    rw [← h.1, ← h.2]
    exact ⟨eqExceptChanges_refl c, rfl⟩
  | cons l ls ih =>
    intro c c' j' h
    simp only [foldDigest] at h
    rw [if_neg (by omega)] at h
    cases hd : digestLine c (-1) (pyRstrip l) with
    | error e => rw [hd] at h; exact absurd h (by simp)
    | ok c2 =>
      rw [hd] at h
      obtain ⟨he, hj⟩ := ih c2 c' j' h
      exact ⟨eqExceptChanges_trans he (digestLine_neg_one hd), hj⟩

theorem digestLine_message_range {c : CommitData} {j : Int} {l : String} {c' : CommitData}
    (h : digestLine c j l = .ok c') (hj : (LOG_INFOS.length : Int) + 1 ≤ j) :
    eqExceptMessage c' c ∧ c'.changes = c.changes := by
  unfold digestLine at h
  rw [if_neg (by omega)] at h
  by_cases h2 : j = (LOG_INFOS.length : Int) + 1
  · rw [if_pos h2] at h
    simp only [Except.ok.injEq] at h
    rw [← h]
    simp [eqExceptMessage]
  · rw [if_neg h2, if_pos (by omega)] at h
    cases hm : c.message with
    | none => rw [hm] at h; exact absurd h (by simp)
    | some m =>
      rw [hm] at h
      simp only [Except.ok.injEq] at h
      rw [← h]
      simp [eqExceptMessage]

theorem foldDigest_message_range_run (ls : List String) :
    ∀ (c : CommitData) (j : Int) c' j', foldDigest ls c j = .ok (c', j') →
      (LOG_INFOS.length : Int) + 1 ≤ j →
      eqExceptMessage c' c ∧ c'.changes = c.changes := by
  induction ls with
  | nil =>
    intro c j c' j' h _
    simp only [foldDigest, Except.ok.injEq, Prod.mk.injEq] at h
    rw [← h.1]
    exact ⟨by simp [eqExceptMessage], rfl⟩
  | cons l ls ih =>
    intro c j c' j' h hj
    simp only [foldDigest] at h
    cases hd : digestLine c j (pyRstrip l) with
    | error e => rw [hd] at h; exact absurd h (by simp)
    | ok c2 =>
      rw [hd] at h
      obtain ⟨hd1, hd2⟩ := digestLine_message_range hd hj
      obtain ⟨hi1, hi2⟩ := ih c2 _ c' j'
        h (by simp only [LOG_INFOS] at hj ⊢; split <;> omega)
      refine ⟨?_, hi2.trans hd2⟩
      unfold eqExceptMessage at *
      obtain ⟨e1, e2, e3, e4, e5, e6, e7, e8, e9, e10, e11⟩ := hd1
      obtain ⟨f1, f2, f3, f4, f5, f6, f7, f8, f9, f10, f11⟩ := hi1
      exact ⟨f1.trans e1, f2.trans e2, f3.trans e3, f4.trans e4, f5.trans e5,
        f6.trans e6, f7.trans e7, f8.trans e8, f9.trans e9, f10.trans e10,
        f11.trans e11⟩

theorem foldDigest_fields_run (ls : List String) :
    ∀ (c : CommitData) (j : Int) c' j', foldDigest ls c j = .ok (c', j') →
      1 ≤ j → j + ls.length ≤ (LOG_INFOS.length : Int) + 1 →
      c'.message = c.message ∧ c'.changes = c.changes := by
  induction ls with
  | nil =>
    intro c j c' j' h _ _
    simp only [foldDigest, Except.ok.injEq, Prod.mk.injEq] at h
    rw [← h.1]
    exact ⟨rfl, rfl⟩
  | cons l ls ih =>
    intro c j c' j' h hj hlen
    simp only [List.length_cons] at hlen
    simp only [foldDigest] at h
    have hjr : 1 ≤ j ∧ j ≤ (LOG_INFOS.length : Int) := by
      constructor
      · exact hj
      · omega
    have hd : digestLine c j (pyRstrip l) = .ok (setField j.toNat c (pyRstrip l)) := by
      unfold digestLine
      rw [if_pos hjr]
    rw [hd, if_pos (by omega)] at h
    obtain ⟨h1, h2⟩ := ih _ _ c' j' h (by omega) (by push_cast at hlen ⊢; omega)
    obtain ⟨s1, s2⟩ := setField_message_changes j.toNat c (pyRstrip l)
    exact ⟨h1.trans s1, h2.trans s2⟩

theorem foldDigest_cons_ok {l : String} {ls : List String} {c : CommitData} {j : Int}
    {c2 : CommitData} (hd : digestLine c j (pyRstrip l) = .ok c2) :
    foldDigest (l :: ls) c j = foldDigest ls c2 (if 0 ≤ j then j + 1 else j) := by
  simp only [foldDigest]
  rw [hd]

theorem foldDigest_message_append (ls : List String) :
    ∀ (c : CommitData) (j : Int) (m : String), (LOG_INFOS.length : Int) + 2 ≤ j →
      c.message = some m →
      foldDigest ls c j =
        .ok ({ c with message := some (ls.foldl (fun a l => a ++ "\n" ++ pyRstrip l) m) }, j + ls.length) := by
  induction ls with
  | nil =>
    intro c j m _ hm
    simp only [foldDigest, List.foldl_nil, List.length_nil]
    rw [← hm]
    simp
  | cons l ls ih =>
    intro c j m hj hm
    have hd : digestLine c j (pyRstrip l) =
        .ok { c with message := some (m ++ "\n" ++ pyRstrip l) } := by
      unfold digestLine
      rw [if_neg (by omega), if_neg (by omega), if_pos (by omega), hm,
        pyRstrip_idem]
    rw [foldDigest_cons_ok hd, if_pos (by omega),
      ih { c with message := some (m ++ "\n" ++ pyRstrip l) } (j + 1)
        (m ++ "\n" ++ pyRstrip l) (by omega) rfl]
    simp only [List.foldl_cons, List.length_cons]
    congr 1
    · congr 1
      push_cast
      omega

theorem foldDigest_message_seed (rest : List String) (c : CommitData) (m1 : String) :
    foldDigest (m1 :: rest) c ((LOG_INFOS.length : Int) + 1) =
      .ok ({ c with message := some (rest.foldl (fun a l => a ++ "\n" ++ pyRstrip l) (pyRstrip m1)) }, (LOG_INFOS.length : Int) + 2 + rest.length) := by
  have hd : digestLine c ((LOG_INFOS.length : Int) + 1) (pyRstrip m1) =
      .ok { c with message := some (pyRstrip m1) } := by
    unfold digestLine
    rw [if_neg (by omega), if_pos rfl, pyRstrip_idem]
  rw [foldDigest_cons_ok hd, if_pos (by positivity),
    foldDigest_message_append rest _ _ (pyRstrip m1) (by omega) rfl]
  simp only [Except.ok.injEq, Prod.mk.injEq]
  constructor
  · simp
  · omega

theorem frameResultE_eq_frameCommit (f : Frame) (h : (frameResultE f).isOk = true) :
    frameResultE f = .ok (frameCommit f) := by
  cases hr : frameResultE f with
  | error e => rw [hr] at h; exact absurd h (by simp [Except.isOk, Except.toBool])
  | ok c => simp [frameCommit, hr, Except.toOption]

theorem frameResultE_decomp (f : Frame) (fc : CommitData) (h : frameResultE f = .ok fc) :
    ∃ (cMid : CommitData) (j0 : Int) (m : String) (jf : Int),
      foldDigest (f.metadata ++ f.message) emptyCommit 1 = .ok (cMid, j0) ∧
      cMid.message = some m ∧
      foldDigest f.changes { cMid with message := some (pyRstrip m) } (-1) = .ok (fc, jf) := by
  unfold frameResultE at h
  split at h
  · exact absurd h (by simp)
  · rename_i c j0 heq
    split at h
    · exact absurd h (by simp)
    · rename_i m hm
      cases hch : foldDigest f.changes { c with message := some (pyRstrip m) } (-1) with
      | error e => rw [hch] at h; exact absurd h (by simp [Except.map])
      | ok p =>
        obtain ⟨fc', jf⟩ := p
        rw [hch] at h
        simp only [Except.map, Except.ok.injEq] at h
        exact ⟨c, j0, m, jf, heq, hm, by rw [hch, h]⟩

theorem runLines_frame_body (offset : Nat) (count : Int) (f : Frame)
    (rest : List String) (cc : Nat) (hwf : f.WF)
    (hbr : breakCond offset count cc = false) :
    runLines offset count (f.body ++ rest) emptyCommit 1 cc =
      runLines offset count rest (frameCommit f) (-1) cc := by
  obtain ⟨hlen, hmsg, hgood, hok⟩ := hwf
  obtain ⟨cMid, j0, m, jf, h1, h2, h3⟩ :=
    frameResultE_decomp f _ (frameResultE_eq_frameCommit f hok)
  have hgood1 : ∀ l ∈ f.metadata ++ f.message, goodLine l = true := by
    intro l hl
    refine hgood l ?_
    simp only [List.mem_append] at hl ⊢
    tauto
  have hgood2 : ∀ l ∈ f.changes, goodLine l = true := by
    intro l hl
    refine hgood l ?_
    simp only [List.mem_append]
    tauto
  have hb : f.body ++ rest =
      (f.metadata ++ f.message) ++ (DELIMITER2_TAIL :: (f.changes ++ rest)) := by
    simp [Frame.body]
  rw [hb,
    runLines_digest_run_ok offset count _ _ _ _ _ _ _ hbr hgood1 h1,
    runLines_delim2 offset count _ _ _ _ m hbr h2,
    runLines_digest_run_ok offset count _ _ _ _ _ _ _ hbr hgood2 h3,
    (foldDigest_changes_run _ _ _ _ h3).2]

theorem frameCommit_isSet (f : Frame) (hwf : f.WF) : (frameCommit f).isSet = true := by
  obtain ⟨hlen, hmsg, hgood, hok⟩ := hwf
  obtain ⟨cMid, j0, m, jf, h1, h2, h3⟩ :=
    frameResultE_decomp f _ (frameResultE_eq_frameCommit f hok)
  obtain ⟨l1, lrest, hm⟩ : ∃ l1 lrest, f.metadata = l1 :: lrest := by
    cases hmm : f.metadata with
    | nil => rw [hmm] at hlen; exact absurd hlen (by simp [LOG_INFOS])
    | cons a b => exact ⟨a, b, rfl⟩
  rw [hm, List.cons_append] at h1
  have hd : digestLine emptyCommit 1 (pyRstrip l1) =
      .ok (setField 1 emptyCommit (pyRstrip l1)) := by
    unfold digestLine
    rw [if_pos (by constructor <;> simp [LOG_INFOS])]
    rfl
  rw [foldDigest_cons_ok hd, if_pos (by omega)] at h1
  have hsome : (setField 1 emptyCommit (pyRstrip l1)).hash.isSome = true := by
    simp [setField]
  have hMid : cMid.hash.isSome = true :=
    foldDigest_hash_isSome _ _ _ _ _ h1 hsome
  have hFc : (frameCommit f).hash.isSome = true := by
    have := (foldDigest_changes_run _ _ _ _ h3).1.1
    rw [this]
    exact hMid
  simp [CommitData.isSet, hFc]

theorem breakCond_true_iff (offset : Nat) (count : Int) (cc : Nat) :
    breakCond offset count cc = true ↔
      0 < count ∧ count ≤ (cc : Int) - (offset : Int) := by
  simp [breakCond]

theorem breakCond_false_iff (offset : Nat) (count : Int) (cc : Nat) :
    breakCond offset count cc = false ↔
      count ≤ 0 ∨ (cc : Int) - (offset : Int) < count := by
  rw [← Bool.not_eq_true, breakCond_true_iff]
  constructor <;> intro h <;> omega

theorem expectedFrom_empty (offset : Nat) (count : Int) (vs : List CommitData) :
    ∀ cc, breakCond offset count cc = true → expectedFrom offset count cc vs = [] := by
  induction vs with
  | nil => intro cc _; rfl
  | cons v vs ih =>
    intro cc h
    rw [breakCond_true_iff] at h
    simp only [expectedFrom]
    rw [if_neg (by omega), List.nil_append]
    exact ih (cc + 1) (by rw [breakCond_true_iff]; omega)

theorem finalYield_not_set (offset : Nat) (count : Int) (c : CommitData) (cc : Nat)
    (h : c.isSet = false) : finalYield offset count c cc = [] := by
  unfold finalYield
  rw [if_neg (by simp [h])]

theorem frame_body_ne_nil (f : Frame) : f.body ≠ [] := by
  unfold Frame.body
  intro h
  have := congrArg List.length h
  simp at this

theorem runLines_frames (offset : Nat) (count : Int) (fs : List Frame) :
    ∀ (pending : CommitData) (cc : Nat), (∀ f ∈ fs, f.WF) → pending.isSet = true →
      runLines offset count (renderStream fs) pending (-1) cc =
        (expectedFrom offset count cc (pending :: fs.map frameCommit), none) := by
  induction fs with
  | nil =>
    intro pending cc _ hset
    show runLines offset count [] pending (-1) cc = _
    rw [runLines_nil]
    simp [expectedFrom, finalYield, hset]
  | cons f fs ih =>
    intro pending cc hwf hset
    have hrs : renderStream (f :: fs) = DELIMITER1 :: (f.body ++ renderStream fs) := by
      simp [renderStream, Frame.lines, Frame.body]
    rw [hrs]
    by_cases hbr : breakCond offset count cc = true
    · rw [runLines_break _ _ _ _ _ _ _ hbr, expectedFrom_empty _ _ _ _ hbr]
      rw [breakCond_true_iff] at hbr
      unfold finalYield
      rw [if_neg (by omega)]
    · rw [Bool.not_eq_true] at hbr
      rw [runLines_delim1 offset count _ pending (-1) cc hbr hset]
      have hwin : (offset ≤ cc ∧ (count ≤ 0 ∨ (cc : Int) - (offset : Int) < count))
          ↔ offset ≤ cc := by
        rw [breakCond_false_iff] at hbr
        constructor
        · exact fun h => h.1
        · exact fun h => ⟨h, hbr⟩
      by_cases hbr2 : breakCond offset count (cc + 1) = true
      · obtain ⟨b1, brest, hbody⟩ : ∃ b1 brest, f.body ++ renderStream fs = b1 :: brest := by
          cases hb : f.body with
          | nil => exact absurd hb (frame_body_ne_nil f)
          | cons a b => exact ⟨a, b ++ renderStream fs, by simp [hb]⟩
        rw [hbody, runLines_break _ _ _ _ _ _ _ hbr2,
          finalYield_not_set _ _ _ _ (by rfl)]
        simp only [List.map_cons, expectedFrom]
        rw [if_congr hwin rfl rfl]
        have h2 := hbr2
        rw [breakCond_true_iff] at h2
        have hno : ¬(offset ≤ cc + 1 ∧
            (count ≤ 0 ∨ (((cc + 1 : Nat) : Int)) - (offset : Int) < count)) := by
          omega
        have hmt : breakCond offset count (cc + 1 + 1) = true := by
          rw [breakCond_true_iff]
          omega
        rw [if_neg hno,
          expectedFrom_empty offset count (List.map frameCommit fs) (cc + 1 + 1) hmt]
        simp
      · rw [Bool.not_eq_true] at hbr2
        rw [runLines_frame_body offset count f _ (cc + 1) (hwf f (by simp)) hbr2,
          ih (frameCommit f) (cc + 1) (fun g hg => hwf g (by simp [hg]))
            (frameCommit_isSet f (hwf f (by simp)))]
        simp only [List.map_cons, expectedFrom]
        rw [if_congr hwin rfl rfl]

theorem iter_commits_frames (offset : Nat) (count : Int) (frames : List Frame)
    (hwf : ∀ f ∈ frames, Frame.WF f) :
    iter_commits offset count (renderStream frames) =
      (expectedFrom offset count 0 (frames.map frameCommit), none) := by
  have hbr0 : breakCond offset count 0 = false := by
    rw [breakCond_false_iff]
    omega
  cases frames with
  | nil =>
    show runLines offset count [] emptyCommit 0 0 = _
    rw [runLines_nil, finalYield_not_set offset count emptyCommit 0 rfl]
    rfl
  | cons f fs =>
    show runLines offset count (renderStream (f :: fs)) emptyCommit 0 0 = _
    have hrs : renderStream (f :: fs) = DELIMITER1 :: (f.body ++ renderStream fs) := by
      simp [renderStream, Frame.lines, Frame.body]
    rw [hrs, runLines_delim1_empty offset count _ 0 0 hbr0,
      runLines_frame_body offset count f _ 0 (hwf f (by simp)) hbr0,
      runLines_frames offset count fs (frameCommit f) 0
        (fun g hg => hwf g (by simp [hg])) (frameCommit_isSet f (hwf f (by simp))),
      List.map_cons]

theorem expectedFrom_nonpos (offset : Nat) (count : Int) (hc : count ≤ 0)
    (vs : List CommitData) :
    ∀ cc, expectedFrom offset count cc vs = vs.drop (offset - cc) := by
  induction vs with
  | nil => intro cc; simp [expectedFrom]
  | cons v vs ih =>
    intro cc
    simp only [expectedFrom]
    by_cases h : offset ≤ cc
    · rw [if_pos ⟨h, Or.inl hc⟩, ih (cc + 1)]
      have e1 : offset - cc = 0 := by omega
      have e2 : offset - (cc + 1) = 0 := by omega
      rw [e1, e2]
      simp
    · rw [if_neg (by tauto), ih (cc + 1), List.nil_append]
      have e1 : offset - cc = (offset - (cc + 1)) + 1 := by omega
      rw [e1, List.drop_succ_cons]

theorem expectedFrom_pos (offset : Nat) (count : Int) (hc : 0 < count)
    (vs : List CommitData) :
    ∀ cc, expectedFrom offset count cc vs =
      (vs.drop (offset - cc)).take (offset + count.toNat - max cc offset) := by
  induction vs with
  | nil => intro cc; simp [expectedFrom]
  | cons v vs ih =>
    intro cc
    simp only [expectedFrom]
    by_cases h1 : offset ≤ cc
    · by_cases h2 : (cc : Int) - (offset : Int) < count
      · rw [if_pos ⟨h1, Or.inr h2⟩, ih (cc + 1)]
        have e0 : offset - cc = 0 := by omega
        have e0' : offset - (cc + 1) = 0 := by omega
        have emax : max cc offset = cc := by omega
        have emax' : max (cc + 1) offset = cc + 1 := by omega
        rw [e0, e0', emax, emax', List.drop_zero, List.drop_zero]
        have estep : offset + count.toNat - cc = (offset + count.toNat - (cc + 1)) + 1 := by
          omega
        rw [estep, List.take_succ_cons]
        rfl
      · rw [if_neg (by rintro ⟨ha, hb | hb⟩ <;> omega), ih (cc + 1), List.nil_append]
        have e1 : offset + count.toNat - max (cc + 1) offset = 0 := by omega
        have e2 : offset + count.toNat - max cc offset = 0 := by omega
        rw [e1, e2]
        simp
    · rw [if_neg (by rintro ⟨ha, _⟩; omega), ih (cc + 1), List.nil_append]
      have emax : max cc offset = offset := by omega
      have emax' : max (cc + 1) offset = offset := by omega
      rw [emax, emax']
      have e1 : offset - cc = (offset - (cc + 1)) + 1 := by omega
      rw [e1, List.drop_succ_cons]

/-- C1: over a stream of `N` well-formed frames, `iter_commits(offset=k,
count=m)` aborts nothing, yields exactly the slice `[k, k+m)` (all of
`[k, N)` when `m ≤ 0`) of the unrestricted commit sequence in order, and its
length is `max 0 (min m (N-k))` for `m > 0` and `N-k` (truncated) for
`m ≤ 0`; the final in-flight commit obeys the same arithmetic. -/
theorem iter_commits_offset_count_slice (frames : List Frame) (offset : Nat)
    (count : Int) (hwf : ∀ f ∈ frames, Frame.WF f) :
    (iter_commits offset count (renderStream frames)).2 = none ∧
    (iter_commits offset count (renderStream frames)).1 =
      (if 0 < count then ((frames.map frameCommit).drop offset).take count.toNat
       else (frames.map frameCommit).drop offset) ∧
    (0 < count →
      ((iter_commits offset count (renderStream frames)).1.length : Int) =
        max 0 (min count ((frames.length : Int) - (offset : Int)))) ∧
    (count ≤ 0 →
      (iter_commits offset count (renderStream frames)).1.length =
        frames.length - offset) := by
  have h := iter_commits_frames offset count frames hwf
  have hslice : (iter_commits offset count (renderStream frames)).1 =
      (if 0 < count then ((frames.map frameCommit).drop offset).take count.toNat
       else (frames.map frameCommit).drop offset) := by
    rw [h]
    by_cases hc : 0 < count
    · rw [if_pos hc, expectedFrom_pos offset count hc _ 0]
      have e0 : offset - 0 = offset := by omega
      have e1 : offset + count.toNat - max 0 offset = count.toNat := by omega
      rw [e0, e1]
    · rw [if_neg hc, expectedFrom_nonpos offset count (by omega) _ 0]
      have e0 : offset - 0 = offset := by omega
      rw [e0]
  refine ⟨by rw [h], hslice, ?_, ?_⟩
  · intro hc
    rw [hslice, if_pos hc]
    simp only [List.length_take, List.length_drop, List.length_map]
    omega
  · intro hc
    rw [hslice, if_neg (by omega)]
    simp only [List.length_drop, List.length_map]

/-- Witness for C1 at a concrete three-frame stream with `offset=1`,
`count=1`. -/
theorem iter_commits_offset_count_slice_witness :
    (iter_commits 1 1 (renderStream [demoFrame1, demoFrame2, demoFrame3])).2 = none ∧
    (iter_commits 1 1 (renderStream [demoFrame1, demoFrame2, demoFrame3])).1 =
      [frameCommit demoFrame2] := by
  have hwf : ∀ f ∈ [demoFrame1, demoFrame2, demoFrame3], Frame.WF f := by decide
  obtain ⟨h1, h2, -, -⟩ :=
    iter_commits_offset_count_slice [demoFrame1, demoFrame2, demoFrame3] 1 1 hwf
  refine ⟨h1, ?_⟩
  rw [h2]
  rfl

theorem expectedFrom_subset (offset : Nat) (count : Int) (vs : List CommitData) :
    ∀ cc x, x ∈ expectedFrom offset count cc vs → x ∈ vs := by
  induction vs with
  | nil => intro cc x h; exact absurd h (by simp [expectedFrom])
  | cons v vs ih =>
    intro cc x h
    simp only [expectedFrom, List.mem_append] at h
    rcases h with h | h
    · split at h
      · simp only [List.mem_singleton] at h
        simp [h]
      · exact absurd h (by simp)
    · exact List.mem_cons_of_mem v (ih (cc + 1) x h)

theorem iter_commits_mem (frames : List Frame) (offset : Nat) (count : Int)
    (hwf : ∀ f ∈ frames, Frame.WF f) :
    ∀ c ∈ (iter_commits offset count (renderStream frames)).1,
      ∃ f ∈ frames, c = frameCommit f := by
  intro c hc
  rw [iter_commits_frames offset count frames hwf] at hc
  have := expectedFrom_subset offset count (frames.map frameCommit) 0 c hc
  obtain ⟨f, hf, he⟩ := List.mem_map.mp this
  exact ⟨f, hf, he.symm⟩

theorem foldDigest_renderMetadata (tv : String → String) :
    foldDigest (renderMetadata tv) emptyCommit 1 =
      .ok ({ hash := some (pyRstrip (tv "%H")),
             tree_hash := some (pyRstrip (tv "%T")),
             parent_hash := some (if pyStrip (pyRstrip (tv "%P")) ≠ "" then pySplitWhitespace (pyRstrip (tv "%P")) else []),
             author := some (pyRstrip (tv "%an")),
             author_email := some (pyRstrip (tv "%ae")),
             author_date := some (parse_datetime (pyRstrip (tv "%aI"))),
             committer := some (pyRstrip (tv "%an")),
             committer_email := some (pyRstrip (tv "%ae")),
             committer_date := some (parse_datetime (pyRstrip (tv "%aI"))),
             ref_names := some (if pyStrip (pyRstrip (tv "%D")) ≠ "" then pySplitSep (pyRstrip (tv "%D")) ", " else []),
             encoding := some (pyRstrip (tv "%e")),
             message := none,
             changes := none }, 12) := rfl

theorem frameCommit_committer_eq_author (f : Frame) (tv : String → String)
    (hwf : f.WF) (hm : f.metadata = renderMetadata tv) :
    (frameCommit f).committer = (frameCommit f).author ∧
    (frameCommit f).committer_email = (frameCommit f).author_email ∧
    (frameCommit f).committer_date = (frameCommit f).author_date := by
  obtain ⟨hlen, hmsg, hgood, hok⟩ := hwf
  obtain ⟨cMid, j0, m, jf, h1, h2, h3⟩ :=
    frameResultE_decomp f _ (frameResultE_eq_frameCommit f hok)
  rw [hm, foldDigest_append, foldDigest_renderMetadata tv] at h1
  obtain ⟨hpres, -⟩ :=
    foldDigest_message_range_run f.message _ 12 cMid j0 h1 (by decide)
  obtain ⟨e1, e2, e3, e4, e5, e6, e7, e8, e9, e10, e11⟩ := hpres
  obtain ⟨q1, q2, q3, q4, q5, q6, q7, q8, q9, q10, q11, q12⟩ :=
    (foldDigest_changes_run _ _ _ _ h3).1
  refine ⟨?_, ?_, ?_⟩
  · rw [q7, q4]
    show cMid.committer = cMid.author
    rw [e7, e4]
  · rw [q8, q5]
    show cMid.committer_email = cMid.author_email
    rw [e8, e5]
  · rw [q9, q6]
    show cMid.committer_date = cMid.author_date
    rw [e9, e6]

/-- C10: because `_LOG_INFOS` lists the author tokens `%an`, `%ae`, `%aI`
for both the author and the committer field groups, every commit yielded by
`iter_commits` over tool-rendered frames has `committer`, `committer_email`
and `committer_date` equal to `author`, `author_email` and `author_date`. -/
theorem iter_commits_committer_eq_author (frames : List Frame) (offset : Nat)
    (count : Int) (hwf : ∀ f ∈ frames, Frame.WF f)
    (hmeta : ∀ f ∈ frames, ∃ tv : String → String, f.metadata = renderMetadata tv) :
    ∀ c ∈ (iter_commits offset count (renderStream frames)).1,
      c.committer = c.author ∧ c.committer_email = c.author_email ∧
        c.committer_date = c.author_date := by
  intro c hc
  obtain ⟨f, hf, rfl⟩ := iter_commits_mem frames offset count hwf c hc
  obtain ⟨tv, htv⟩ := hmeta f hf
  exact frameCommit_committer_eq_author f tv (hwf f hf) htv

/-- Witness for C10: the committer fields of the commit parsed from a
concrete token-rendered frame coincide with its author fields. -/
theorem iter_commits_committer_eq_author_witness :
    (frameCommit tokenFrame).committer = (frameCommit tokenFrame).author ∧
    (frameCommit tokenFrame).committer_email = (frameCommit tokenFrame).author_email ∧
    (frameCommit tokenFrame).committer_date = (frameCommit tokenFrame).author_date := by
  refine iter_commits_committer_eq_author [tokenFrame] 0 0 (by decide) ?_
    (frameCommit tokenFrame) (by decide)
  intro f hf
  simp only [List.mem_singleton] at hf
  exact ⟨demoTv, by rw [hf]; rfl⟩

theorem stripList_idem (p : α → Bool) (l : List α) :
    ((((l.dropWhile p).reverse.dropWhile p).reverse.dropWhile p).reverse.dropWhile p).reverse =
      ((l.dropWhile p).reverse.dropWhile p).reverse := by
  set A := l.dropWhile p with hA
  set B := (A.reverse.dropWhile p).reverse with hB
  have hBA : B <+: A := by
    rw [hB]
    conv_rhs => rw [← List.reverse_reverse A]
    exact List.reverse_prefix.mpr (List.dropWhile_suffix p)
  have hBdrop : B.dropWhile p = B := by
    cases hBc : B with
    | nil => rfl
    | cons b t =>
      obtain ⟨r, hr⟩ := hBA
      rw [hBc] at hr
      have hAv : A = b :: (t ++ r) := by rw [← hr]; simp
      have hh := List.head?_dropWhile_not p l
      rw [← hA, hAv] at hh
      simp only [List.head?_cons] at hh
      rw [List.dropWhile_cons_of_neg (by simp [hh])]
  rw [hBdrop, hB, List.reverse_reverse, dropWhile_self_inv]

theorem pyStrip_idem (s : String) : pyStrip (pyStrip s) = pyStrip s := by
  unfold pyStrip pyRstrip pyLstrip
  congr 1
  exact stripList_idem isPySpace s.data

theorem isLower_not_isDigit (c : Char) (h : c.isLower = true) :
    c.isDigit = false := by
  simp only [Char.isLower, Bool.and_eq_true, decide_eq_true_eq] at h
  simp only [Char.isDigit, Bool.and_eq_false_iff, decide_eq_false_iff_not]
  right
  intro hd
  exact absurd (UInt32.le_trans h.1 hd) (by decide)

theorem isLower_ne_dash (c : Char) (h : c.isLower = true) : c ≠ '-' := by
  intro he
  rw [he] at h
  exact absurd h (by decide)

theorem matchSummary_numstat_none (s : String) (t m n : String)
    (h : matchSummary s = some (t, m, n)) : matchNumstat s = none := by
  unfold matchSummary at h
  unfold matchNumstat
  cases hd : s.data with
  | nil => rw [hd] at h; exact absurd h (by simp)
  | cons c cs =>
    rw [hd] at h
    by_cases hcl : c.isLower
    · have hfield : matchNumstatField (c :: cs) = none := by
        simp only [matchNumstatField]
        rw [if_neg (isLower_ne_dash c hcl)]
        rw [List.takeWhile_cons_of_neg (by simp [isLower_not_isDigit c hcl])]
        rfl
      rw [hfield]
    · rw [List.takeWhile_cons_of_neg (by simpa using hcl)] at h
      simp at h

theorem parse_changes_of_none {c : CommitData} {l : String}
    (h : matchNumstat l = none) : parse_changes c l = c := by
  unfold parse_changes
  rw [h]

theorem enrichFirst_none (t m name : String) (chs : List Change)
    (h : ∀ ch ∈ chs, ch.name ≠ name) : enrichFirst t m name chs = none := by
  induction chs with
  | nil => rfl
  | cons ch rest ih =>
    unfold enrichFirst
    rw [if_neg (h ch (by simp)), ih (fun x hx => h x (by simp [hx]))]
    rfl

theorem listIsInfixOf_append (n pre post : List α) [DecidableEq α] :
    listIsInfixOf n (pre ++ n ++ post) = true := by
  induction pre with
  | nil =>
    cases hn : n ++ post with
    | nil =>
      simp only [List.nil_append, hn, listIsInfixOf]
      have : n = [] := by
        cases n with
        | nil => rfl
        | cons a b => exact absurd hn (by simp)
      simp [this]
    | cons h t =>
      simp only [List.nil_append, hn, listIsInfixOf]
      rw [← hn]
      have : n.isPrefixOf (n ++ post) = true := by
        rw [List.isPrefixOf_iff_prefix]
        exact ⟨post, rfl⟩
      simp [this]
  | cons p pre ih =>
    simp only [List.cons_append, listIsInfixOf, List.append_eq]
    rw [ih]
    simp

theorem summary_mismatch_parse (c : CommitData) (chs : List Change)
    (l t m name : String) (hch : c.changes = some chs)
    (hsum : matchSummary (pyStrip l) = some (t, m, name))
    (hren : pyStartsWith l "rename " = false)
    (hmiss : ∀ ch ∈ chs, ch.name ≠ name) :
    parse_summary c l = .error (.assertFail name l c) := by
  unfold parse_summary
  rw [if_neg (by simp [hren])]
  simp only [hsum, hch, enrichFirst_none t m name chs hmiss]

/-- C2 (amended): a change-section line matching the summary grammar, not
starting with `rename `, whose path matches no Change recorded so far —
provided at least one numeric-stat Change was recorded (the `"changes"` key
exists) — aborts the stream at once with the `AssertionError` carrying the
offending line and the partially-built commit, and the rendered message
contains the offending line. -/
theorem summary_mismatch_aborts (offset : Nat) (count : Int) (c : CommitData)
    (chs : List Change) (rawLine : String) (rest : List String) (cc : Nat)
    (t m name : String)
    (hbr : breakCond offset count cc = false)
    (hd1 : pyRstrip rawLine ≠ DELIMITER1)
    (hd2 : pyRstrip rawLine ≠ DELIMITER2_TAIL)
    (hch : c.changes = some chs)
    (hsum : matchSummary (pyStrip (pyRstrip rawLine)) = some (t, m, name))
    (hren : pyStartsWith (pyStrip (pyRstrip rawLine)) "rename " = false)
    (hmiss : ∀ ch ∈ chs, ch.name ≠ name) :
    runLines offset count (rawLine :: rest) c (-1) cc =
      ([], some (.assertFail name (pyStrip (pyRstrip rawLine)) c)) ∧
    listIsInfixOf (pyStrip (pyRstrip rawLine)).data
      (ParseError.assertFail name (pyStrip (pyRstrip rawLine)) c).message.data = true := by
  set s := pyStrip (pyRstrip rawLine) with hs
  have hss : pyStrip s = s := by rw [hs]; exact pyStrip_idem _
  have hnum : matchNumstat s = none :=
    matchSummary_numstat_none s t m name hsum
  have hdig : digestLine c (-1) (pyRstrip rawLine) =
      .error (.assertFail name s c) := by
    unfold digestLine
    rw [if_neg (by decide), if_neg (by decide), if_neg (by decide), if_pos rfl,
      ← hs, parse_changes_of_none hnum,
      summary_mismatch_parse c chs s t m name hch (by rw [hss]; exact hsum) hren hmiss]
    rfl
  constructor
  · rw [runLines_digest offset count rawLine rest c (-1) cc hbr hd1 hd2, hdig]
  · show listIsInfixOf s.data
      ("Expected '" ++ name ++ "' in --netstat changes, but got only --summary '"
        ++ s ++ "'\ncommit: <commit dict>").data = true
    simp only [String.data_append]
    have := listIsInfixOf_append s.data
      (("Expected '" ++ name ++ "' in --netstat changes, but got only --summary '").data)
      ("'\ncommit: <commit dict>".data)
    simpa using this

/-- C2 counterexample: a frame whose change section holds a summary line but
no numeric-stat line aborts with a bare `KeyError` on `"changes"`, whose
message is just the key — it does not include the offending line — so the
claim as stated fails on that frame. -/
theorem summary_mismatch_counterexample :
    iter_commits 0 0 (renderStream [noNumstatFrame]) =
      ([], some (.keyError "changes")) ∧
    (ParseError.keyError "changes").message = "changes" ∧
    listIsInfixOf "create mode 100644 a.txt".data
      (ParseError.keyError "changes").message.data = false := by
  refine ⟨by decide, rfl, by decide⟩

/-- Witness for the amended C2 at a concrete mid-frame state and summary
line. -/
theorem summary_mismatch_aborts_witness :
    runLines 0 0 ["create mode 100644 a.txt"] mismatchCommit (-1) 0 =
      ([], some (.assertFail "a.txt"
        (pyStrip (pyRstrip "create mode 100644 a.txt")) mismatchCommit)) ∧
    listIsInfixOf (pyStrip (pyRstrip "create mode 100644 a.txt")).data
      (ParseError.assertFail "a.txt"
        (pyStrip (pyRstrip "create mode 100644 a.txt")) mismatchCommit).message.data
      = true := by
  exact summary_mismatch_aborts 0 0 mismatchCommit
    [{ name := "b.txt", type := "change", additions := "1", deletions := "0" }]
    "create mode 100644 a.txt" [] 0 "create" "100644" "a.txt"
    rfl (by decide) (by decide) rfl (by decide) (by decide) (by decide)

theorem frameCommit_message (f : Frame) (hwf : f.WF) :
    (frameCommit f).message = joinedMessage f.message := by
  obtain ⟨hlen, hmsg, hgood, hok⟩ := hwf
  obtain ⟨cMid, j0, m, jf, h1, h2, h3⟩ :=
    frameResultE_decomp f _ (frameResultE_eq_frameCommit f hok)
  rw [foldDigest_append] at h1
  cases hfm : foldDigest f.metadata emptyCommit 1 with
  | error e => rw [hfm] at h1; exact absurd h1 (by simp)
  | ok p =>
    obtain ⟨cM, jM⟩ := p
    rw [hfm] at h1
    have hjM : jM = 1 + f.metadata.length :=
      foldDigest_final_j f.metadata emptyCommit 1 cM jM hfm (by omega)
    have hjM12 : jM = (LOG_INFOS.length : Int) + 1 := by
      rw [hjM, hlen]
      omega
    have hmn : cM.message = none :=
      (foldDigest_fields_run f.metadata emptyCommit 1 cM jM hfm (by omega)
        (by rw [hlen]; omega)).1
    obtain ⟨m1, rest, hms⟩ : ∃ m1 rest, f.message = m1 :: rest := by
      cases hc : f.message with
      | nil => exact absurd hc hmsg
      | cons a b => exact ⟨a, b, rfl⟩
    have h1' : foldDigest f.message cM jM = .ok (cMid, j0) := h1
    rw [hjM12, hms, foldDigest_message_seed rest cM m1] at h1'
    simp only [Except.ok.injEq, Prod.mk.injEq] at h1'
    have hmid : cMid.message =
        some (rest.foldl (fun a l => a ++ "\n" ++ pyRstrip l) (pyRstrip m1)) := by
      rw [← h1'.1]
    rw [h2] at hmid
    simp only [Option.some.injEq] at hmid
    obtain ⟨-, -, -, -, -, -, -, -, -, -, -, hfcm⟩ :=
      (foldDigest_changes_run _ _ _ _ h3).1
    rw [hfcm, hms]
    show some (pyRstrip m) = joinedMessage (m1 :: rest)
    rw [hmid]
    rfl

/-- C3 counterexample: a frame whose interior message line `"ab "` carries
trailing whitespace parses to the message `"first\nab\ncd"` — the interior
trailing space is gone, although the single rstrip-at-DELIMITER2 the claim
describes would have kept it (the raw join is a fixed point of `pyRstrip`). -/
theorem message_interior_strip_counterexample :
    ((iter_commits 0 0 (renderStream [trailingWSFrame])).1.map
      (fun c => c.message)) = [some "first\nab\ncd"] ∧
    pyRstrip "first\nab \ncd" = "first\nab \ncd" ∧
    ("first\nab\ncd" : String) ≠ "first\nab \ncd" := by
  exact ⟨by decide, by decide, by decide⟩

/-- C3 (amended): every yielded commit's message is built from its frame's
message lines with each line rstripped as it is read — the first line seeds
the message, later lines are appended with a newline separator — and the
whole text is rstripped once more when DELIMITER2 is recognized; interior
newlines survive, interior trailing whitespace does not. -/
theorem iter_commits_message (frames : List Frame) (offset : Nat) (count : Int)
    (hwf : ∀ f ∈ frames, Frame.WF f) :
    ∀ c ∈ (iter_commits offset count (renderStream frames)).1,
      ∃ f ∈ frames, c = frameCommit f ∧ c.message = joinedMessage f.message := by
  intro c hc
  obtain ⟨f, hf, rfl⟩ := iter_commits_mem frames offset count hwf c hc
  exact ⟨f, hf, rfl, frameCommit_message f (hwf f hf)⟩

/-- Witness for the amended C3 on the concrete frame with an interior
trailing space. -/
theorem iter_commits_message_witness :
    (frameCommit trailingWSFrame).message = joinedMessage trailingWSFrame.message ∧
    joinedMessage trailingWSFrame.message = some "first\nab\ncd" := by
  obtain ⟨f, hf, he, hm⟩ := iter_commits_message [trailingWSFrame] 0 0 (by decide)
    (frameCommit trailingWSFrame) (by decide)
  simp only [List.mem_singleton] at hf
  subst hf
  exact ⟨hm, by decide⟩

/-- C6: three linear commits regroup into the single contiguous run
`[C1, C2, C3]` (one open branch holding all three, flushed at stream end),
while two unrelated commits come out as two independent single-commit runs. -/
theorem iter_commits_consecutive_runs :
    iter_commits_consecutive 100 100 [linC1, linC2, linC3] = [linC1, linC2, linC3] ∧
    ([linC1, linC2, linC3].foldl (consecStep 100 100) ([], [])).2 =
      [⟨2, [linC1, linC2, linC3]⟩] ∧
    iter_commits_consecutive 100 100 [soloX, soloY] = [soloX, soloY] ∧
    ([soloX, soloY].foldl (consecStep 100 100) ([], [])).2 =
      [⟨1, [soloX]⟩, ⟨0, [soloY]⟩] :=
  ⟨by decide, by decide, by decide, by decide⟩

theorem enrichFirst_spec (t m name : String) :
    ∀ (chs chs' : List Change), enrichFirst t m name chs = some chs' →
      ∃ i ch, chs[i]? = some ch ∧ ch.name = name ∧
        (∀ ch2 ∈ chs.take i, ch2.name ≠ name) ∧
        chs' = chs.take i ++ [{ ch with type := t, mode := some m }] ++ chs.drop (i + 1) := by
  intro chs
  induction chs with
  | nil => intro chs' h; exact absurd h (by simp [enrichFirst])
  | cons ch rest ih =>
    intro chs' h
    unfold enrichFirst at h
    by_cases hn : ch.name = name
    · rw [if_pos hn] at h
      simp only [Option.some.injEq] at h
      exact ⟨0, ch, by simp, hn, by simp, by simp [← h]⟩
    · rw [if_neg hn] at h
      cases he : enrichFirst t m name rest with
      | none => rw [he] at h; exact absurd h (by simp)
      | some rest' =>
        rw [he] at h
        simp only [Option.map_some', Option.some.injEq] at h
        obtain ⟨i, ch0, hg, hnm, htake, heq⟩ := ih rest' he
        refine ⟨i + 1, ch0, by simpa using hg, hnm, ?_, ?_⟩
        · intro ch2 hch2
          simp only [List.take_succ_cons, List.mem_cons] at hch2
          rcases hch2 with rfl | hch2
          · exact hn
          · exact htake ch2 hch2
        · rw [← h, heq]
          simp

/-- C7: the frame with numstat `a.txt` and summary `create mode 100644
a.txt` yields exactly one Change, named `a.txt` with type `create` and mode
`100644`; with a second numstat path `b.txt` present, only the matching
Change gains its type/mode — names, additions, deletions and every other
Change are untouched, as the general decomposition of the enrichment step
shows. -/
theorem change_reconciliation :
    ((iter_commits 0 0 (renderStream [demoFrame1])).1.map (fun c => c.changes)) =
      [some [{ name := "a.txt", type := "create", additions := "1",
               deletions := "0", old_name := none, mode := some "100644" }]] ∧
    ((iter_commits 0 0 (renderStream [reconcileFrame])).1.map (fun c => c.changes)) =
      [some [{ name := "a.txt", type := "create", additions := "1",
               deletions := "0", old_name := none, mode := some "100644" },
             { name := "b.txt", type := "change", additions := "2",
               deletions := "3", old_name := none, mode := none }]] ∧
    (∀ (t m name : String) (chs chs' : List Change),
      enrichFirst t m name chs = some chs' →
      ∃ i ch, chs[i]? = some ch ∧ ch.name = name ∧
        (∀ ch2 ∈ chs.take i, ch2.name ≠ name) ∧
        chs' = chs.take i ++ [{ ch with type := t, mode := some m }] ++ chs.drop (i + 1)) :=
  ⟨by decide, by decide, fun t m name => enrichFirst_spec t m name⟩

/-- Witness for C7's general enrichment clause at a concrete two-element
change list. -/
theorem change_reconciliation_witness :
    enrichFirst "create" "100644" "a.txt"
      [{ name := "a.txt", type := "change", additions := "1", deletions := "0" },
       { name := "b.txt", type := "change", additions := "2", deletions := "3" }] =
      some [{ name := "a.txt", type := "create", additions := "1",
              deletions := "0", old_name := none, mode := some "100644" },
            { name := "b.txt", type := "change", additions := "2",
              deletions := "3", old_name := none, mode := none }] ∧
    ((iter_commits 0 0 (renderStream [demoFrame1])).1.map (fun c => c.changes)) =
      [some [{ name := "a.txt", type := "create", additions := "1",
               deletions := "0", old_name := none, mode := some "100644" }]] := by
  refine ⟨by decide, change_reconciliation.1⟩

/-- C8: when opening the archive image fails with a read error, `iter_files`
yields the empty sequence if no path restriction was requested, and raises
an error carrying the captured stderr text if one was. -/
theorem iter_files_read_failure (filenames : List String) (error_response : String) :
    (filenames = [] →
      iter_files (.error ()) filenames error_response = .ok []) ∧
    (filenames ≠ [] →
      iter_files (.error ()) filenames error_response = .error error_response) := by
  constructor
  · intro h
    subst h
    rfl
  · intro h
    unfold iter_files
    rw [if_neg (by simpa using h)]

/-- Witness for C8 with and without a path restriction. -/
theorem iter_files_read_failure_witness :
    iter_files (.error ()) [] "git archive failed" = .ok [] ∧
    iter_files (.error ()) ["a.txt"] "git archive failed" = .error "git archive failed" :=
  ⟨(iter_files_read_failure [] "git archive failed").1 rfl,
   (iter_files_read_failure ["a.txt"] "git archive failed").2 (by simp)⟩

theorem foldl_append_flatten (buffer : List Nat) (extents : List (Nat × Nat)) :
    ∀ init, extents.foldl (fun data e => data ++ pyReadAt buffer e.1 e.2) init =
      init ++ (extents.map fun e => pyReadAt buffer e.1 e.2).flatten := by
  induction extents with
  | nil => intro init; simp
  | cons e rest ih =>
    intro init
    simp only [List.foldl_cons, List.map_cons, List.flatten_cons, ih]
    simp

/-- C9: a sparse entry's content is the concatenation, in declared order, of
the byte ranges read at each extent; on the demonstration buffer the extents
`[(0,4),(10,4)]` give exactly those two 4-byte ranges, not the linear run. -/
theorem fileContent_sparse (buffer : List Nat) (t : TarInfo)
    (extents : List (Nat × Nat)) (h : t.sparse = some extents) :
    fileContent buffer t = (extents.map fun e => pyReadAt buffer e.1 e.2).flatten ∧
    fileContent demoBuffer sparseInfo = pyReadAt demoBuffer 0 4 ++ pyReadAt demoBuffer 10 4 ∧
    fileContent demoBuffer sparseInfo = [0, 1, 2, 3, 10, 11, 12, 13] ∧
    fileContent demoBuffer sparseInfo ≠ pyReadAt demoBuffer 0 20 := by
  refine ⟨?_, by decide, by decide, by decide⟩
  unfold fileContent
  rw [h]
  exact foldl_append_flatten buffer extents []

/-- Witness for C9 at the demonstration sparse entry. -/
theorem fileContent_sparse_witness :
    fileContent demoBuffer sparseInfo =
      ([(0, 4), (10, 4)].map fun e => pyReadAt demoBuffer e.1 e.2).flatten ∧
    fileContent demoBuffer sparseInfo = [0, 1, 2, 3, 10, 11, 12, 13] :=
  ⟨(fileContent_sparse demoBuffer sparseInfo [(0, 4), (10, 4)] rfl).1,
   (fileContent_sparse demoBuffer sparseInfo [(0, 4), (10, 4)] rfl).2.2.1⟩

theorem evict_split (bl ba : Nat) (b' : OpenBranch) (u : List OpenBranch)
    (a : Bool) :
    (if bl < b'.commits.length || ba < b'.age then
       (b'.commits ++ ((u.filter (isEvict bl ba)).map OpenBranch.commits).flatten,
        u.filter (fun b => !isEvict bl ba b), a)
     else
       (((u.filter (isEvict bl ba)).map OpenBranch.commits).flatten,
        b' :: u.filter (fun b => !isEvict bl ba b), a)) =
    ((((b' :: u).filter (isEvict bl ba)).map OpenBranch.commits).flatten,
     (b' :: u).filter (fun b => !isEvict bl ba b), a) := by
  cases he : isEvict bl ba b' with
  | true =>
    rw [if_pos (by simpa [isEvict] using he)]
    simp [List.filter_cons, he]
  | false =>
    rw [if_neg (by simp [isEvict] at he; simp [he])]
    simp [List.filter_cons, he]

theorem stepOpen_eq (bl ba : Nat) (c : Commit) :
    ∀ (bs : List OpenBranch) (added : Bool),
      stepOpen bl ba c bs added =
        ((((updBranches c bs added).1.filter (isEvict bl ba)).map OpenBranch.commits).flatten,
         (updBranches c bs added).1.filter (fun b => !isEvict bl ba b),
         (updBranches c bs added).2) := by
  intro bs
  induction bs with
  | nil => intro added; rfl
  | cons b bs ih =>
    intro added
    simp only [stepOpen, updBranches]
    rw [ih (added || (!added && branchMatches c b))]
    exact evict_split bl ba
      ⟨b.age + 1, if (!added && branchMatches c b) = true then b.commits ++ [c] else b.commits⟩
      (updBranches c bs (added || (!added && branchMatches c b))).1
      (updBranches c bs (added || (!added && branchMatches c b))).2

theorem updBranches_added_mono (c : Commit) :
    ∀ bs, (updBranches c bs true).2 = true := by
  intro bs
  induction bs with
  | nil => rfl
  | cons b bs ih =>
    simp only [updBranches, Bool.not_true, Bool.false_and, Bool.or_false]
    exact ih

theorem updBranches_age_pos (c : Commit) :
    ∀ (bs : List OpenBranch) (added : Bool) b',
      b' ∈ (updBranches c bs added).1 → 1 ≤ b'.age := by
  intro bs
  induction bs with
  | nil => intro added b' h; exact absurd h (by simp [updBranches])
  | cons b bs ih =>
    intro added b' h
    simp only [updBranches, List.mem_cons] at h
    rcases h with rfl | h
    · simp
    · exact ih _ b' h

theorem updBranches_flatten_perm (c : Commit) :
    ∀ (bs : List OpenBranch) (added : Bool),
      (((updBranches c bs added).1.map OpenBranch.commits).flatten).Perm
        ((bs.map OpenBranch.commits).flatten ++
          (if !added && (updBranches c bs added).2 then [c] else [])) := by
  intro bs
  induction bs with
  | nil =>
    intro added
    cases added <;> simp [updBranches]
  | cons b bs ih =>
    intro added
    by_cases hm : (!added && branchMatches c b) = true
    · have ha : added = false := by
        cases added
        · rfl
        · simp at hm
      subst ha
      have hbm : branchMatches c b = true := by simpa using hm
      have hih := ih true
      rw [updBranches_added_mono c bs] at hih
      simp only [Bool.not_true, Bool.false_and, Bool.false_eq_true, if_false,
        List.append_nil] at hih
      simp only [updBranches, hbm, Bool.not_false, Bool.true_and, Bool.false_or,
        if_true, List.map_cons, List.flatten_cons, updBranches_added_mono c bs,
        Bool.and_true, Bool.and_self]
      refine (hih.append_left (b.commits ++ [c])).trans ?_
      rw [List.append_assoc, List.append_assoc]
      refine List.Perm.append_left b.commits ?_
      exact List.perm_append_comm
    · have hm' : (!added && branchMatches c b) = false := by simpa using hm
      have hih := ih added
      simp only [updBranches, hm', Bool.or_false, Bool.false_eq_true, if_false,
        List.map_cons, List.flatten_cons]
      conv_rhs => rw [List.append_assoc]
      exact hih.append_left b.commits

theorem filtered_flatten_perm (bl ba : Nat) (u : List OpenBranch) :
    ((((u.filter (isEvict bl ba)).map OpenBranch.commits).flatten) ++
      (((u.filter (fun b => !isEvict bl ba b)).map OpenBranch.commits).flatten)).Perm
      ((u.map OpenBranch.commits).flatten) := by
  have hp := List.filter_append_perm (isEvict bl ba) u
  have h2 := (hp.map OpenBranch.commits).flatten
  simpa [List.map_append, List.flatten_append] using h2

theorem consecStep_perm (bl ba : Nat) (out : List Commit)
    (branches : List OpenBranch) (c : Commit) :
    ((consecStep bl ba (out, branches) c).1 ++
      (((consecStep bl ba (out, branches) c).2.map OpenBranch.commits).flatten)).Perm
      ((out ++ (branches.map OpenBranch.commits).flatten) ++ [c]) := by
  unfold consecStep
  by_cases hp : c.parent_hash.isEmpty = true
  · rw [if_pos hp]
    simp [List.flatten_append, List.append_assoc]
  · rw [if_neg hp]
    simp only [stepOpen_eq bl ba c branches false]
    set u := (updBranches c branches false).1 with hu
    set a := (updBranches c branches false).2 with ha
    by_cases hadd : a = true
    · rw [if_pos hadd]
      have h1 : ((((u.filter (isEvict bl ba)).map OpenBranch.commits).flatten) ++
          (((u.filter (fun b => !isEvict bl ba b)).map OpenBranch.commits).flatten)).Perm
          ((branches.map OpenBranch.commits).flatten ++ [c]) := by
        refine (filtered_flatten_perm bl ba u).trans ?_
        have h0 := updBranches_flatten_perm c branches false
        rw [← hu, ← ha, hadd] at h0
        simpa using h0
      rw [List.append_assoc, List.append_assoc]
      exact h1.append_left out
    · rw [if_neg hadd]
      have h1 : ((((u.filter (isEvict bl ba)).map OpenBranch.commits).flatten) ++
          (((u.filter (fun b => !isEvict bl ba b)).map OpenBranch.commits).flatten)).Perm
          ((branches.map OpenBranch.commits).flatten) := by
        refine (filtered_flatten_perm bl ba u).trans ?_
        have h0 := updBranches_flatten_perm c branches false
        rw [← hu, ← ha] at h0
        have ha' : a = false := by
          cases h : a
          · rfl
          · exact absurd h hadd
        rw [ha'] at h0
        simpa using h0
      simp only [List.map_append, List.flatten_append, List.map_cons,
        List.map_nil, List.flatten_cons, List.flatten_nil, List.append_nil]
      rw [List.append_assoc, List.append_assoc]
      refine List.Perm.append_left out ?_
      rw [← List.append_assoc]
      exact h1.append_right [c]

/-- C4: `iter_commits_consecutive` emits every consumed commit exactly once,
whether its branch is evicted mid-stream or flushed at stream end: the
output is a permutation of the input. -/
theorem iter_commits_consecutive_perm (bl ba : Nat) (commits : List Commit) :
    (iter_commits_consecutive bl ba commits).Perm commits := by
  suffices h : ∀ (cs : List Commit) (acc : List Commit × List OpenBranch),
      ((cs.foldl (consecStep bl ba) acc).1 ++
        (((cs.foldl (consecStep bl ba) acc).2.map OpenBranch.commits).flatten)).Perm
        ((acc.1 ++ (acc.2.map OpenBranch.commits).flatten) ++ cs) by
    have := h commits ([], [])
    simpa [iter_commits_consecutive] using this
  intro cs
  induction cs with
  | nil => intro acc; simp
  | cons c cs ih =>
    intro acc
    simp only [List.foldl_cons]
    refine (ih (consecStep bl ba acc c)).trans ?_
    have hstep := consecStep_perm bl ba acc.1 acc.2 c
    refine (hstep.append_right cs).trans ?_
    rw [List.append_assoc, List.singleton_append]

/-- C5: when a commit with parents arrives, every open branch whose aged and
possibly-extended form exceeds `branch_length` or `branch_age` has its
buffered commits appended to the output immediately and is excluded from the
surviving open set; the surviving set holds only non-evicted updated
branches plus possibly the fresh single-commit branch, so an evicted branch
can never receive a later commit, even one declaring its last commit as a
parent. -/
theorem branch_eviction_final (bl ba : Nat) (c : Commit) (out : List Commit)
    (branches : List OpenBranch) (hp : c.parent_hash ≠ []) :
    (consecStep bl ba (out, branches) c).1 =
      out ++ ((((updBranches c branches false).1.filter (isEvict bl ba)).map
        OpenBranch.commits).flatten) ∧
    (∀ b' ∈ (updBranches c branches false).1, isEvict bl ba b' = true →
      b' ∉ (consecStep bl ba (out, branches) c).2) ∧
    (∀ b ∈ (consecStep bl ba (out, branches) c).2,
      (b ∈ (updBranches c branches false).1 ∧ isEvict bl ba b = false) ∨
        b = ⟨0, [c]⟩) := by
  have hpe : c.parent_hash.isEmpty = false := by
    cases h : c.parent_hash
    · exact absurd h hp
    · rfl
  have hstep := stepOpen_eq bl ba c branches false
  unfold consecStep
  rw [if_neg (by simp [hpe]), hstep]
  refine ⟨rfl, ?_, ?_⟩
  · intro b' hb' he hmem
    simp only at hmem
    split at hmem
    · have := List.of_mem_filter hmem
      simp [he] at this
    · simp only [List.mem_append, List.mem_singleton] at hmem
      rcases hmem with hmem | hmem
      · have := List.of_mem_filter hmem
        simp [he] at this
      · have hage := updBranches_age_pos c branches false b' hb'
        rw [hmem] at hage
        simp at hage
  · intro b hb
    simp only at hb
    split at hb
    · exact Or.inl ⟨List.mem_of_mem_filter hb, by
        have := List.of_mem_filter hb
        simpa using this⟩
    · simp only [List.mem_append, List.mem_singleton] at hb
      rcases hb with hb | hb
      · exact Or.inl ⟨List.mem_of_mem_filter hb, by
          have := List.of_mem_filter hb
          simpa using this⟩
      · exact Or.inr hb

/-- Witness for C5: with `branch_age = 0`, the branch holding the root
commit is evicted by the arrival of an unrelated commit — its commit is
emitted at once and the branch leaves the open set. -/
theorem branch_eviction_final_witness :
    (consecStep 100 0 ([], [⟨0, [linC1]⟩]) soloY).1 = [linC1] ∧
    (⟨1, [linC1]⟩ : OpenBranch) ∉ (consecStep 100 0 ([], [⟨0, [linC1]⟩]) soloY).2 := by
  obtain ⟨h1, h2, -⟩ :=
    branch_eviction_final 100 0 soloY [] [⟨0, [linC1]⟩] (by decide)
  refine ⟨by rw [h1]; decide, h2 ⟨1, [linC1]⟩ (by decide) (by decide)⟩

end Giterator
